import Mathlib

/-!
# Verification of the update-serialization queue of `vscode-jupyter`

Shallow embedding of `chainWithPendingUpdates` / `clearPendingChainedUpdatesForTests`
(src/client/datascience/interactive-common/interactiveBase.ts, lines 1608-1651),
`createWebviewCellButton` (lines 496-528) and `submitCode` (lines 595-740) of the
same file, together with proofs and refutations of the specification's claims
about them.

## Modelling the promise-chain serializer

The source is:

```
const pendingCellUpdates = new WeakMap<NotebookDocument | NotebookCell, Promise<unknown>>();

export async function chainWithPendingUpdates(documentOrCell, update): Promise<boolean> {
    const notebook = 'notebook' in documentOrCell ? documentOrCell.notebook : documentOrCell;
    if (notebook.isClosed) { return true; }
    const pendingUpdates = pendingCellUpdates.has(notebook)
        ? pendingCellUpdates.get(documentOrCell)!
        : Promise.resolve();
    const deferred = createDeferred<boolean>();
    const aggregatedPromise = pendingUpdates
        .finally(async () => {
            const edit = new WorkspaceEdit();
            const result = update(edit);
            if (isPromise(result)) { await result; }
            if (edit.size === 0) { return; }
            await workspace.applyEdit(edit).then(
                (result) => deferred.resolve(result),
                (ex) => deferred.reject(ex)
            );
        })
        .catch(noop);
    pendingCellUpdates.set(documentOrCell, aggregatedPromise);
    return deferred.promise;
}
```

The body of the `async` function contains no `await` before it returns
`deferred.promise`, so each invocation runs atomically with respect to the
JavaScript event loop up to that return: a sequence of invocations is a
sequence of atomic *enqueue steps* acting on the `pendingCellUpdates` map.
We model the map as an association list from keys (a notebook document or a
cell, with `NotebookDocument` and `NotebookCell` identified by numeric ids)
to the index of the invocation whose `aggregatedPromise` was stored.

The asynchronous *execution* of the enqueued callbacks is determined by the
chain structure: the callback of an invocation whose `pendingUpdates` base
was the stored promise of invocation `j` starts only after invocation `j`'s
aggregated promise settles; an invocation whose base was `Promise.resolve()`
starts a fresh chain.  Every aggregated promise settles: the `.finally`
callback always settles (a throwing `update` rejects it; `applyEdit`'s
rejection is absorbed by the two-handler `.then`), and `.catch(noop)` turns
any rejection into fulfilment.  Hence the callback of every successfully
enqueued invocation eventually runs, and the promise returned to the caller
settles exactly when `deferred` is resolved or rejected.
-/

namespace VSCJupyter

/-- Key into the `pendingCellUpdates` weak map: a `NotebookDocument` or a
`NotebookCell`.  Documents are identified by a numeric id, cells by the id of
their owning notebook together with a cell index. -/
inductive DocOrCell where
  | doc (nb : Nat)
  | cell (nb : Nat) (idx : Nat)
deriving DecidableEq, Repr

/-- `'notebook' in documentOrCell ? documentOrCell.notebook : documentOrCell`:
in the VS Code API only `NotebookCell` has a `notebook` property, so this
returns the owning notebook document of a cell and the document itself
otherwise. -/
def DocOrCell.notebook : DocOrCell → Nat
  | .doc nb => nb
  | .cell nb _ => nb

/-- The `pendingCellUpdates` map: bindings from keys to the index of the
invocation whose aggregated promise is currently stored there.  `set`
prepends and `lookup` takes the first match, which gives JavaScript `Map`
lookup semantics. -/
def PendingMap := List (DocOrCell × Nat)
deriving DecidableEq, Repr

/-- `Map.prototype.get` (on our id-indexed model). -/
def mapLookup (m : PendingMap) (k : DocOrCell) : Option Nat :=
  match m with
  | [] => none
  | (k', v) :: rest => if k' = k then some v else mapLookup rest k

/-- `Map.prototype.set`. -/
def mapSet (m : PendingMap) (k : DocOrCell) (v : Nat) : PendingMap :=
  (k, v) :: m

/-- `Map.prototype.delete` (drops every binding for the key, so a subsequent
lookup misses). -/
def mapDelete (m : PendingMap) (k : DocOrCell) : PendingMap :=
  List.filter (fun p => p.1 ≠ k) m

/-- What the synchronous part of one `chainWithPendingUpdates` invocation did. -/
inductive EnqueueStatus where
  | /-- `notebook.isClosed` was true: the function returned a promise resolved
    to `true` without registering anything. -/
    skippedClosed
  | /-- `pendingCellUpdates.has(notebook)` was true but
    `pendingCellUpdates.get(documentOrCell)` returned `undefined`, so
    `undefined.finally(...)` threw a `TypeError` before the `set`: the async
    function returns a rejected promise and the map is unchanged. -/
    crashed
  | /-- The callback was registered on a chain: onto the aggregated promise of
    invocation `pred`, or onto `Promise.resolve()` when `pred = none`. -/
    enqueued (pred : Option Nat)
deriving DecidableEq, Repr

/-- The synchronous enqueue step of one `chainWithPendingUpdates` invocation,
acting on the statuses recorded so far (the length of which is the index of
this invocation) and the `pendingCellUpdates` map.  Each branch mirrors the
source line for line; note that the membership test uses the *notebook*
(`pendingCellUpdates.has(notebook)`) while the read and the write use
*documentOrCell* (`get(documentOrCell)!` / `set(documentOrCell, ...)`). -/
def chainWithPendingUpdatesStep (closed : Nat → Bool)
    (acc : List EnqueueStatus × PendingMap) (documentOrCell : DocOrCell) :
    List EnqueueStatus × PendingMap :=
  let ss := acc.1
  let m := acc.2
  let notebook := documentOrCell.notebook
  if closed notebook then
    (ss ++ [.skippedClosed], m)
  else if (mapLookup m (.doc notebook)).isSome then
    match mapLookup m documentOrCell with
    | none => (ss ++ [.crashed], m)
    | some j => (ss ++ [.enqueued (some j)], mapSet m documentOrCell ss.length)
  else
    (ss ++ [.enqueued none], mapSet m documentOrCell ss.length)

/-- State after the first `n` invocations of `chainWithPendingUpdates`, for a
fixed sequence `calls` of keys and a fixed closed-notebook predicate. -/
def enqueueN (closed : Nat → Bool) (calls : List DocOrCell) :
    Nat → List EnqueueStatus × PendingMap
  | 0 => ([], [])
  | n + 1 =>
    match calls.get? n with
    | none => enqueueN closed calls n
    | some k => chainWithPendingUpdatesStep closed (enqueueN closed calls n) k

/-- Statuses of all invocations of a call sequence. -/
def enqueueStatuses (closed : Nat → Bool) (calls : List DocOrCell) :
    List EnqueueStatus :=
  (enqueueN closed calls calls.length).1

/-- Fuel-indexed helper for `ancestors` (structural recursion on the fuel so
that concrete instances compute by kernel reduction).  With fuel at least the
index the fuel never runs out, because every status list produced by
`enqueueN` stores only predecessors smaller than the invocation's index and
the `i < j` guard clamps anything else. -/
def ancestorsAux (ss : List EnqueueStatus) : Nat → Nat → List Nat
  | 0, j =>
    match ss.get? j with
    | some (.enqueued (some i)) => [i]
    | _ => []
  | fuel + 1, j =>
    match ss.get? j with
    | some (.enqueued (some i)) =>
      if i < j then i :: ancestorsAux ss fuel i else [i]
    | _ => []

/-- The chain of invocations that must settle, in order, before invocation
`j`'s callback runs: its base invocation, that one's base, and so on. -/
def ancestors (ss : List EnqueueStatus) (j : Nat) : List Nat :=
  ancestorsAux ss j j

/-- Whether the status records a successfully registered callback. -/
def EnqueueStatus.isEnqueued : EnqueueStatus → Bool
  | .enqueued _ => true
  | _ => false

/-- Invocation `i` got its callback registered on a chain. -/
def enqueuedAt (ss : List EnqueueStatus) (i : Nat) : Bool :=
  (ss.get? i).any EnqueueStatus.isEnqueued

/-- Invocations `i` and `j` may have their callbacks in flight concurrently:
both were registered, but neither chain contains the other, so nothing makes
one wait for the other to settle. -/
def mayRunConcurrently (ss : List EnqueueStatus) (i j : Nat) : Prop :=
  enqueuedAt ss i = true ∧ enqueuedAt ss j = true ∧
  i ∉ ancestors ss j ∧ j ∉ ancestors ss i

instance (ss : List EnqueueStatus) (i j : Nat) :
    Decidable (mayRunConcurrently ss i j) := by
  unfold mayRunConcurrently; infer_instance

/-! ## Outcomes observed by callers

Each invocation is described by its key together with the behaviour of its
`update` callback: whether it throws (or returns a rejecting promise), and
how many edits it contributes to the `WorkspaceEdit` builder.  The outcome of
`workspace.applyEdit` for invocation `i` is given by an oracle
`apply i : Except String Bool` (`.ok r` = the thenable resolves with `r`,
`.error msg` = it rejects with reason `msg`). -/

/-- One `chainWithPendingUpdates` invocation: its key and the behaviour of
its `update` callback. -/
structure CallSpec where
  key : DocOrCell
  /-- `update` throws, or the promise it returns rejects. -/
  updateThrows : Bool
  /-- `edit.size` after `update` ran (edits contributed to the builder). -/
  editCount : Nat
deriving DecidableEq, Repr

/-- The observable fate of a JavaScript promise returned to a caller. -/
inductive Outcome where
  | /-- Resolved with a boolean. -/ resolved (b : Bool)
  | /-- Rejected with the `TypeError` from `undefined.finally(...)`. -/
    rejectedTypeError
  | /-- Rejected with the reason of the `workspace.applyEdit` rejection. -/
    rejectedApply (msg : String)
  | /-- Never settles. -/ pending
deriving DecidableEq, Repr

/-- Statuses of a sequence of invocations described by `CallSpec`s.  The
enqueue step reads only the key, never the `update` behaviour. -/
def callStatuses (closed : Nat → Bool) (specs : List CallSpec) :
    List EnqueueStatus :=
  enqueueStatuses closed (specs.map CallSpec.key)

/-- Whether `workspace.applyEdit` is invoked for invocation `i`: its callback
was registered (and hence eventually runs), `update` completed normally, and
the builder was nonempty (`edit.size === 0` short-circuits before the
apply). -/
def applyInvoked (closed : Nat → Bool) (specs : List CallSpec) (i : Nat) : Bool :=
  enqueuedAt (callStatuses closed specs) i &&
    match specs.get? i with
    | some c => !c.updateThrows && c.editCount != 0
    | none => false

/-- Whether the `update` callback of invocation `i` is ever invoked.  The
callback is passed to `.finally` exactly when the invocation reached that
call (status `enqueued`); a chain whose every aggregated promise settles
(see the module comment) runs every registered `.finally` callback. -/
def updateInvoked (closed : Nat → Bool) (specs : List CallSpec) (i : Nat) : Bool :=
  enqueuedAt (callStatuses closed specs) i

/-- The fate of the promise `chainWithPendingUpdates` returned to the caller
of invocation `i`.  A skipped invocation resolved `true` directly; a crashed
one rejected with the `TypeError`; a registered callback resolves or rejects
`deferred` with the `applyEdit` outcome — unless `update` threw or
contributed no edits, in which case `deferred` is never settled and the
caller's promise stays pending forever. -/
def callerOutcome (closed : Nat → Bool) (specs : List CallSpec)
    (apply : Nat → Except String Bool) (i : Nat) : Outcome :=
  match (callStatuses closed specs).get? i, specs.get? i with
  | some .skippedClosed, _ => .resolved true
  | some .crashed, _ => .rejectedTypeError
  | some (.enqueued _), some c =>
    if c.updateThrows then .pending
    else if c.editCount = 0 then .pending
    else
      match apply i with
      | .ok r => .resolved r
      | .error msg => .rejectedApply msg
  | _, _ => .pending

/-! ## Lifecycle of the module state

To talk about documents closing *between* invocations and about the test
helper we model the module state — the set of closed documents and the
`pendingCellUpdates` map — as a transition system.  The module registers no
`onDidCloseNotebookDocument` (or any other) listener; closing a document
flips its `isClosed` flag in the host and nothing else.  The only code in
the module that deletes map entries is `clearPendingChainedUpdatesForTests`:

```
export function clearPendingChainedUpdatesForTests() {
    const editor: NotebookEditor | undefined = window.activeNotebookEditor;
    if (editor?.document) {
        pendingCellUpdates.delete(editor.document);
        editor.document.getCells().forEach((cell) => pendingCellUpdates.delete(cell));
    }
}
```
-/

/-- Module state: which documents are closed, the `pendingCellUpdates` map,
and the statuses of the invocations made so far (whose length numbers the
next invocation). -/
structure ChainState where
  closedDocs : List Nat
  pending : PendingMap
  statuses : List EnqueueStatus
deriving DecidableEq, Repr

/-- Fresh state of a newly started extension host process: the module-level
`const pendingCellUpdates = new WeakMap(...)` is created empty. -/
def initChainState : ChainState := ⟨[], [], []⟩

/-- Events acting on the module state. -/
inductive ChainEvent where
  | /-- A `chainWithPendingUpdates` invocation with the given key. -/
    call (k : DocOrCell)
  | /-- VS Code closes a notebook document. -/
    closeDoc (nb : Nat)
  | /-- `clearPendingChainedUpdatesForTests`, with `window.activeNotebookEditor`
    absent (`none`) or showing document `nb` whose `getCells()` has the given
    cell indices. -/
    clearForTests (active : Option (Nat × List Nat))
deriving Repr

/-- One transition.  A `call` runs the synchronous enqueue step with the
current closed set; a `closeDoc` only records the flag (the module has no
close listener, so `pendingCellUpdates` is untouched); `clearForTests`
deletes the active document's binding and then, mirroring the `forEach`, the
binding of each of its cells. -/
def ChainState.step (s : ChainState) : ChainEvent → ChainState
  | .call k =>
    let r := chainWithPendingUpdatesStep (fun nb => s.closedDocs.contains nb)
      (s.statuses, s.pending) k
    { s with statuses := r.1, pending := r.2 }
  | .closeDoc nb => { s with closedDocs := nb :: s.closedDocs }
  | .clearForTests none => s
  | .clearForTests (some (nb, cells)) =>
    { s with
      pending :=
        cells.foldl (fun m idx => mapDelete m (.cell nb idx))
          (mapDelete s.pending (.doc nb)) }

/-- Run a list of events from the fresh state. -/
def runChainEvents (evs : List ChainEvent) : ChainState :=
  evs.foldl ChainState.step initChainState

/-! ## Webview cell buttons

`createWebviewCellButton` (interactiveBase.ts:496-528) manages the
`externalButtons: IExternalWebviewCellButtonWithCallback[]` field, which is
initialised to `[]` and mutated nowhere else in the class (the click handler
`handleExecuteExternalCommand` only reads it).  On each change an
`UpdateExternalCellButtons` message is posted carrying the buttons with
`callback` mapped to `undefined`. -/

/-- The `CellState` enum, with the members interactiveBase.ts uses
(`init`, `executing`, `finished`, `error`). -/
inductive CellState where
  | init
  | executing
  | finished
  | error
deriving DecidableEq, Repr

/-- An entry of `externalButtons`.  The `callback` function is represented by
an identifier (functions carry no decidable equality); posted messages carry
`none` for it, mirroring `{ ...b, callback: undefined }`. -/
structure ExternalButton where
  buttonId : String
  callbackId : Option Nat
  codicon : String
  statusToEnable : List CellState
  tooltip : String
  running : Bool
deriving DecidableEq, Repr

/-- `this.externalButtons.map((b) => { return { ...b, callback: undefined }; })`. -/
def stripCallbacks (bs : List ExternalButton) : List ExternalButton :=
  bs.map (fun b => { b with callbackId := none })

/-- `Array.prototype.findIndex`, with `-1` represented as `none`. -/
def findIndex (p : ExternalButton → Bool) : List ExternalButton → Option Nat
  | [] => none
  | b :: rest => if p b then some 0 else (findIndex p rest).map (· + 1)

/-- The body of `createWebviewCellButton`: if no button with this id exists,
push a new entry with `running: false` and post the stripped list; otherwise
change nothing.  Returns the new list and the posted
`UpdateExternalCellButtons` payloads. -/
def createWebviewCellButton (buttons : List ExternalButton) (buttonId : String)
    (callbackId : Nat) (codicon : String) (statusToEnable : List CellState)
    (tooltip : String) : List ExternalButton × List (List ExternalButton) :=
  match findIndex (fun b => b.buttonId == buttonId) buttons with
  | none =>
    let bs :=
      buttons ++ [⟨buttonId, some callbackId, codicon, statusToEnable, tooltip, false⟩]
    (bs, [stripCallbacks bs])
  | some _ => (buttons, [])

/-- The `dispose` closure returned by `createWebviewCellButton`: it captures
only `buttonId`, finds the first entry with that id, splices it out
(`splice(buttonIndex, 1)`) and posts the stripped list; with no such entry it
does nothing. -/
def disposeWebviewCellButton (buttons : List ExternalButton) (buttonId : String) :
    List ExternalButton × List (List ExternalButton) :=
  match findIndex (fun b => b.buttonId == buttonId) buttons with
  | some i => let bs := buttons.eraseIdx i; (bs, [stripCallbacks bs])
  | none => (buttons, [])

/-- An operation on the `externalButtons` list: a `createWebviewCellButton`
call, or invoking the `dispose` of a handle returned for the given id. -/
inductive ButtonOp where
  | create (buttonId : String) (callbackId : Nat) (codicon : String)
      (statusToEnable : List CellState) (tooltip : String)
  | disposeHandle (buttonId : String)
deriving Repr

/-- Effect of one operation on the `externalButtons` list. -/
def buttonStep (bs : List ExternalButton) : ButtonOp → List ExternalButton
  | .create id cb co st tt => (createWebviewCellButton bs id cb co st tt).1
  | .disposeHandle id => (disposeWebviewCellButton bs id).1

/-- The `externalButtons` list after a sequence of creates and disposals,
starting from the initial `[]`. -/
def runButtonOps (ops : List ButtonOp) : List ExternalButton :=
  ops.foldl buttonStep []

/-- The ids currently present in a button list. -/
def buttonIds (bs : List ExternalButton) : List String :=
  bs.map ExternalButton.buttonId

/-! ## `submitCode`

`submitCode` (interactiveBase.ts:595-740) is modelled as a function from an
environment describing the host's responses to the pair of its returned
boolean and the trace of its externally visible effects, in program order.
The host connection calls (`ensureConnectionAndNotebook`, `ensureDarkSet`,
`show`) are assumed to succeed; the claims about `submitCode` concern only
the empty-code guard, which runs before any of them. -/

/-- Externally visible effects of one `submitCode` call, in program order. -/
inductive SubmitEffect where
  | /-- `sendKernelTelemetryEvent(..., Telemetry.ExecuteCell)`. -/
    telemetryExecuteCell
  | /-- `this.setStatus(localize.DataScience.executingCode(), false)`. -/
    statusSet
  | /-- `this.shareMessage(InteractiveWindowMessages.RemoteAddCode, ...)`. -/
    shareRemoteAddCode
  | /-- `this.addSysInfo(SysInfoReason.Start)`. -/
    sysInfoAdded
  | /-- `this.setLaunchingFile(file)` reaching the notebook. -/
    launchingFileSet
  | /-- The debugger attach branch. -/
    debuggerStarted
  | /-- `this.setFileInKernel(file, cancelToken)`. -/
    fileSetInKernel
  | /-- `this._notebook.executeObservable(code, file, line, id, false)`. -/
    executeObservable (code : String)
  | /-- `this.executeEvent.fire(code)` — the `onExecutedCode` event. -/
    executeEventFired (code : String)
  | /-- `this.sendCellsToWebView(combined)` for one observable emission
    (cells abstracted to their states). -/
    cellsSentToWebView (states : List CellState)
  | /-- `status.dispose()` in the `finally`. -/
    statusDisposed
deriving DecidableEq, Repr

/-- The environment of one `submitCode` call. -/
structure SubmitEnv where
  /-- `CellMatcher.stripFirstMarker` for the active settings.  `CellMatcher`
  lives in src/client/datascience/cellMatcher.ts, which is not among the
  sources; the claims quantify over its output, so it is kept as a
  parameter of the model. -/
  stripFirstMarker : String → String
  /-- Whether `this._notebook` is set. -/
  hasNotebook : Bool
  /-- `this.configuration.getSettings(owningResource).stopOnError`. -/
  stopOnError : Bool
  /-- The batches of cells emitted by the `executeObservable` subscription,
  abstracted to their `CellState`s. -/
  emissions : List (List CellState)
  /-- `file === Identifiers.EmptyFileName`. -/
  fileIsEmptyFileName : Bool
  /-- An `id` argument was supplied. -/
  hasId : Bool
  /-- A `debugInfo` argument was supplied. -/
  debug : Bool

/-- `submitCode(code, file, line, id?, data?, debugInfo?, cancelToken?)`:
returns the boolean result and the effect trace. -/
def submitCode (env : SubmitEnv) (code : String) : Bool × List SubmitEffect :=
  -- sendKernelTelemetryEvent / traceInfo / StopWatch bookkeeping, result = true
  let pre : List SubmitEffect := [.telemetryExecuteCell]
  -- `if (cellMatcher.stripFirstMarker(code).length === 0) { return result; }`
  if (env.stripFirstMarker code).length = 0 then
    (true, pre)
  else
    let trace1 := pre ++ [.statusSet]
      ++ (if env.hasId then [] else [.shareRemoteAddCode])
      ++ (if env.fileIsEmptyFileName then [] else [.sysInfoAdded])
    if env.hasNotebook then
      let trace2 := trace1
        ++ (if env.fileIsEmptyFileName then [] else [.launchingFileSet])
        ++ (if env.debug then [.debuggerStarted] else [])
        ++ [.fileSetInKernel, .executeObservable code, .executeEventFired code]
        ++ env.emissions.map (fun batch => .cellsSentToWebView batch)
      -- per emission: `result = result && cells.find((c) => c.state === CellState.error) === undefined`
      let result := env.emissions.foldl
        (fun r batch =>
          if env.stopOnError then r && batch.all (fun st => st != CellState.error)
          else r)
        true
      (result, trace2 ++ [.statusDisposed])
    else
      (true, trace1 ++ [.statusDisposed])

/-! ## Claim-level predicates

Direct transcriptions of the specification's claims, to be proved or refuted
against the model. -/

/-- The key of invocation `i`. -/
def keyAt (specs : List CallSpec) (i : Nat) : Option DocOrCell :=
  (specs.get? i).map CallSpec.key

/-- Claim C1 as stated: for every key, invocations on the same key are
serialized — each later registered invocation's callback runs only after
every earlier one on the same key has settled (its chain contains them). -/
def serializedPerKey (closed : Nat → Bool) (calls : List DocOrCell) : Prop :=
  ∀ i, i < calls.length → ∀ j, j < calls.length →
    i < j → calls.get? i = calls.get? j →
    enqueuedAt (enqueueStatuses closed calls) i = true →
    enqueuedAt (enqueueStatuses closed calls) j = true →
    i ∈ ancestors (enqueueStatuses closed calls) j

set_option synthInstance.maxSize 1024 in
instance (closed : Nat → Bool) (calls : List DocOrCell) :
    Decidable (serializedPerKey closed calls) := by
  unfold serializedPerKey
  infer_instance

/-- Claim C3 as stated: an invocation contributing no edits performs no
apply, and later invocations on the same key still run in submission order
(each chained after the previous one). -/
def noOpPreservesOrder (closed : Nat → Bool) (specs : List CallSpec) : Prop :=
  ∀ i, i < specs.length →
    (specs.get? i).map CallSpec.editCount = some 0 →
    enqueuedAt (callStatuses closed specs) i = true →
    applyInvoked closed specs i = false
    ∧ ∀ j, j < specs.length → ∀ k, k < specs.length →
        i < j → j < k →
        keyAt specs j = keyAt specs i → keyAt specs k = keyAt specs i →
        enqueuedAt (callStatuses closed specs) j = true →
        enqueuedAt (callStatuses closed specs) k = true →
        j ∈ ancestors (callStatuses closed specs) k

/-- Claim C4 as stated: every invocation on an open document gets a promise
that settles with exactly the outcome of `workspace.applyEdit` for its batch
of edits. -/
def settlesWithApplyOutcome (closed : Nat → Bool) (specs : List CallSpec)
    (apply : Nat → Except String Bool) : Prop :=
  ∀ i, i < specs.length →
    (specs.get? i).map (fun c => closed c.key.notebook) = some false →
    callerOutcome closed specs apply i =
      match apply i with
      | .ok r => .resolved r
      | .error msg => .rejectedApply msg

instance (closed : Nat → Bool) (specs : List CallSpec)
    (apply : Nat → Except String Bool) :
    Decidable (settlesWithApplyOutcome closed specs apply) := by
  unfold settlesWithApplyOutcome
  infer_instance

/-- Claim C5's first half as stated: once a document is closed, its entry is
gone from the pending-update map. -/
def entriesRemovedOnClose (evs : List ChainEvent) (nb : Nat) : Prop :=
  (runChainEvents evs).closedDocs.contains nb = true →
    mapLookup (runChainEvents evs).pending (.doc nb) = none

instance (evs : List ChainEvent) (nb : Nat) :
    Decidable (entriesRemovedOnClose evs nb) := by
  unfold entriesRemovedOnClose
  infer_instance

/-- Invariant tying the `pendingCellUpdates` map to the statuses recorded so
far (`acc`), for a call sequence `calls`: every binding points at an earlier
registered invocation with that key; for a notebook-document key the stored
invocation's chain contains every earlier registered invocation on that key;
and a document key missing from the map has no registered invocation yet.
The analogous per-key property fails for cell keys, because the membership
test `pendingCellUpdates.has(notebook)` asks about the document while the
bindings are stored under the cell. -/
structure StepInv (calls : List DocOrCell) (acc : List EnqueueStatus × PendingMap) : Prop where
  predLt : ∀ p i, acc.1.get? p = some (.enqueued (some i)) → i < p
  bindOk : ∀ k v, mapLookup acc.2 k = some v →
    v < acc.1.length ∧ calls.get? v = some k ∧ enqueuedAt acc.1 v = true
  docSome : ∀ nb v, mapLookup acc.2 (.doc nb) = some v →
    ∀ p, calls.get? p = some (.doc nb) → enqueuedAt acc.1 p = true →
      p = v ∨ p ∈ ancestors acc.1 v
  docNone : ∀ nb, mapLookup acc.2 (.doc nb) = none →
    ∀ p, calls.get? p = some (.doc nb) → enqueuedAt acc.1 p = false

/-! ## Basic lemmas about the map and the enqueue fold -/

theorem mapLookup_mapSet (m : PendingMap) (k k' : DocOrCell) (v : Nat) :
    mapLookup (mapSet m k v) k' = if k = k' then some v else mapLookup m k' := rfl

theorem mapLookup_mapDelete (m : PendingMap) (k k' : DocOrCell) :
    mapLookup (mapDelete m k) k' = if k' = k then none else mapLookup m k' := by
  induction m with
  | nil => simp [mapDelete, mapLookup]
  | cons p rest ih =>
    obtain ⟨a, b⟩ := p
    by_cases h1 : a = k <;> by_cases h2 : k' = k <;> by_cases h3 : a = k' <;>
      simp_all [mapDelete, List.filter_cons, mapLookup]

/-- Unfolding equation for `enqueueN` at a successor. -/
theorem enqueueN_succ (closed : Nat → Bool) (calls : List DocOrCell) (n : Nat) :
    enqueueN closed calls (n + 1) =
      match calls.get? n with
      | none => enqueueN closed calls n
      | some k => chainWithPendingUpdatesStep closed (enqueueN closed calls n) k := rfl

/-- Each enqueue step appends exactly one status. -/
theorem chainWithPendingUpdatesStep_fst (closed : Nat → Bool)
    (acc : List EnqueueStatus × PendingMap) (k : DocOrCell) :
    ∃ st, (chainWithPendingUpdatesStep closed acc k).1 = acc.1 ++ [st] := by
  unfold chainWithPendingUpdatesStep
  by_cases h1 : closed k.notebook
  · exact ⟨.skippedClosed, by simp [h1]⟩
  · cases h2 : mapLookup acc.2 (.doc k.notebook)
    · exact ⟨.enqueued none, by simp [h1, h2]⟩
    · cases h3 : mapLookup acc.2 k with
      | none => exact ⟨.crashed, by simp [h1, h2, h3]⟩
      | some j => exact ⟨.enqueued (some j), by simp [h1, h2, h3]⟩

theorem enqueueN_length (closed : Nat → Bool) (calls : List DocOrCell) :
    ∀ n, (enqueueN closed calls n).1.length = min n calls.length := by
  intro n
  induction n with
  | zero => simp [enqueueN]
  | succ n ih =>
    rw [enqueueN_succ]
    cases hc : calls.get? n with
    | none =>
      have hle : calls.length ≤ n := List.get?_eq_none.mp hc
      simp only [ih]
      omega
    | some k =>
      have hlt : n < calls.length := by
        by_contra hge
        rw [List.get?_eq_none.mpr (by omega)] at hc
        exact Option.noConfusion hc
      obtain ⟨st, hst⟩ := chainWithPendingUpdatesStep_fst closed (enqueueN closed calls n) k
      simp only [hst, List.length_append, List.length_singleton, ih]
      omega

/-- Earlier statuses are never rewritten by later steps. -/
theorem enqueueN_get?_mono (closed : Nat → Bool) (calls : List DocOrCell)
    {n n' : Nat} (h : n ≤ n') {p : Nat} (hp : p < (enqueueN closed calls n).1.length) :
    (enqueueN closed calls n').1.get? p = (enqueueN closed calls n).1.get? p := by
  induction n', h using Nat.le_induction with
  | base => rfl
  | succ m hm ih =>
    rw [← ih]
    have hpm : p < (enqueueN closed calls m).1.length := by
      have h1 := enqueueN_length closed calls n
      have h2 := enqueueN_length closed calls m
      omega
    rw [enqueueN_succ]
    cases hc : calls.get? m with
    | none => rfl
    | some k =>
      obtain ⟨st, hst⟩ := chainWithPendingUpdatesStep_fst closed (enqueueN closed calls m) k
      rw [hst, List.get?_append hpm]

/-- The fuel argument of `ancestorsAux` is irrelevant once it reaches the
index. -/
theorem ancestorsAux_fuel_irrel (ss : List EnqueueStatus) :
    ∀ fuel fuel' j, j ≤ fuel → j ≤ fuel' →
      ancestorsAux ss fuel j = ancestorsAux ss fuel' j := by
  intro fuel
  induction fuel with
  | zero =>
    intro fuel' j hj hj'
    interval_cases j
    cases fuel' with
    | zero => rfl
    | succ f =>
      show (match ss.get? 0 with
        | some (.enqueued (some i)) => [i]
        | _ => []) =
        match ss.get? 0 with
        | some (.enqueued (some i)) => if i < 0 then i :: ancestorsAux ss f i else [i]
        | _ => []
      cases h : ss.get? 0 with
      | none => rfl
      | some st =>
        cases st with
        | skippedClosed => rfl
        | crashed => rfl
        | enqueued pred =>
          cases pred with
          | none => rfl
          | some i => simp
  | succ f ih =>
    intro fuel' j hj hj'
    cases fuel' with
    | zero =>
      interval_cases j
      show (match ss.get? 0 with
        | some (.enqueued (some i)) => if i < 0 then i :: ancestorsAux ss f i else [i]
        | _ => []) =
        match ss.get? 0 with
        | some (.enqueued (some i)) => [i]
        | _ => []
      cases h : ss.get? 0 with
      | none => rfl
      | some st =>
        cases st with
        | skippedClosed => rfl
        | crashed => rfl
        | enqueued pred =>
          cases pred with
          | none => rfl
          | some i => simp
    | succ f' =>
      show (match ss.get? j with
        | some (.enqueued (some i)) => if i < j then i :: ancestorsAux ss f i else [i]
        | _ => []) =
        match ss.get? j with
        | some (.enqueued (some i)) => if i < j then i :: ancestorsAux ss f' i else [i]
        | _ => []
      cases h : ss.get? j with
      | none => rfl
      | some st =>
        cases st with
        | skippedClosed => rfl
        | crashed => rfl
        | enqueued pred =>
          cases pred with
          | none => rfl
          | some i =>
            by_cases hij : i < j
            · simp only [hij, if_true]
              rw [ih f' i (by omega) (by omega)]
            · simp [hij]

/-- Unfolding equation for `ancestors`. -/
theorem ancestors_eq (ss : List EnqueueStatus) (j : Nat) :
    ancestors ss j =
      match ss.get? j with
      | some (.enqueued (some i)) => if i < j then i :: ancestors ss i else [i]
      | _ => [] := by
  unfold ancestors
  cases j with
  | zero =>
    show (match ss.get? 0 with
      | some (.enqueued (some i)) => [i]
      | _ => []) = _
    cases h : ss.get? 0 with
    | none => rfl
    | some st =>
      cases st with
      | skippedClosed => rfl
      | crashed => rfl
      | enqueued pred =>
        cases pred with
        | none => rfl
        | some i => simp
  | succ f =>
    show (match ss.get? (f + 1) with
      | some (.enqueued (some i)) =>
        if i < f + 1 then i :: ancestorsAux ss f i else [i]
      | _ => []) = _
    cases h : ss.get? (f + 1) with
    | none => rfl
    | some st =>
      cases st with
      | skippedClosed => rfl
      | crashed => rfl
      | enqueued pred =>
        cases pred with
        | none => rfl
        | some i =>
          by_cases hij : i < f + 1
          · simp only [hij, if_true]
            rw [ancestorsAux_fuel_irrel ss f i i (by omega) le_rfl]
          · simp [hij]

theorem get?_append_singleton_cases (ss : List EnqueueStatus) (st : EnqueueStatus)
    (p : Nat) (x : EnqueueStatus) (h : (ss ++ [st]).get? p = some x) :
    (p < ss.length ∧ ss.get? p = some x) ∨ (p = ss.length ∧ x = st) := by
  by_cases hp : p < ss.length
  · exact Or.inl ⟨hp, by rwa [List.get?_append hp] at h⟩
  · by_cases hpe : p = ss.length
    · subst hpe
      rw [List.get?_concat_length] at h
      exact Or.inr ⟨rfl, (Option.some_injective _ h).symm⟩
    · exfalso
      rw [List.get?_eq_none.mpr (by simp only [List.length_append, List.length_singleton]; omega)] at h
      exact Option.noConfusion h

theorem enqueuedAt_append_lt (ss : List EnqueueStatus) (st : EnqueueStatus) {p : Nat}
    (hp : p < ss.length) : enqueuedAt (ss ++ [st]) p = enqueuedAt ss p := by
  unfold enqueuedAt
  rw [List.get?_append hp]

theorem enqueuedAt_append_self (ss : List EnqueueStatus) (st : EnqueueStatus) :
    enqueuedAt (ss ++ [st]) ss.length = st.isEnqueued := by
  unfold enqueuedAt
  rw [List.get?_concat_length]
  rfl

theorem enqueuedAt_append_cases (ss : List EnqueueStatus) (st : EnqueueStatus) (p : Nat)
    (h : enqueuedAt (ss ++ [st]) p = true) :
    (p < ss.length ∧ enqueuedAt ss p = true) ∨ (p = ss.length ∧ st.isEnqueued = true) := by
  by_cases hp : p < ss.length
  · exact Or.inl ⟨hp, by rwa [enqueuedAt_append_lt ss st hp] at h⟩
  · by_cases hpe : p = ss.length
    · subst hpe
      rw [enqueuedAt_append_self] at h
      exact Or.inr ⟨rfl, h⟩
    · exfalso
      unfold enqueuedAt at h
      rw [List.get?_eq_none.mpr (by simp only [List.length_append, List.length_singleton]; omega)] at h
      simp at h

/-- `ancestors` at `j` reads only entries at positions at most `j`. -/
theorem ancestors_congr (ss ss' : List EnqueueStatus) :
    ∀ j, (∀ q, q ≤ j → ss'.get? q = ss.get? q) → ancestors ss' j = ancestors ss j := by
  intro j
  induction j using Nat.strong_induction_on with
  | _ j ih =>
    intro hq
    rw [ancestors_eq, ancestors_eq, hq j le_rfl]
    cases h : ss.get? j with
    | none => rfl
    | some st =>
      cases st with
      | skippedClosed => rfl
      | crashed => rfl
      | enqueued pred =>
        cases pred with
        | none => rfl
        | some i =>
          by_cases hij : i < j
          · simp only [hij, if_true]
            rw [ih i hij (fun q hqi => hq q (le_trans hqi (le_of_lt hij)))]
          · simp [hij]

/-- Appending a status does not change the chain of an earlier invocation. -/
theorem ancestors_append (ss : List EnqueueStatus) (st : EnqueueStatus) {v : Nat}
    (hv : v < ss.length) : ancestors (ss ++ [st]) v = ancestors ss v :=
  ancestors_congr ss (ss ++ [st]) v
    (fun q hq => List.get?_append (lt_of_le_of_lt hq hv))

/-- Appending a non-`enqueued` status and leaving the map alone preserves the
invariant (the skipped-closed and crashed branches). -/
theorem stepInv_append_inert (calls : List DocOrCell)
    (acc : List EnqueueStatus × PendingMap) (st : EnqueueStatus)
    (hst : st.isEnqueued = false) (hinv : StepInv calls acc) :
    StepInv calls (acc.1 ++ [st], acc.2) := by
  constructor
  · intro p i hp
    rcases get?_append_singleton_cases acc.1 st p _ hp with ⟨hlt, hold⟩ | ⟨_, hx⟩
    · exact hinv.predLt p i hold
    · rw [← hx] at hst
      simp [EnqueueStatus.isEnqueued] at hst
  · intro k v hv
    obtain ⟨h1, h2, h3⟩ := hinv.bindOk k v hv
    refine ⟨by simp only [List.length_append, List.length_singleton]; omega, h2, ?_⟩
    rwa [enqueuedAt_append_lt _ _ h1]
  · intro nb v hv p hp hpe
    rcases enqueuedAt_append_cases acc.1 st p hpe with ⟨hlt, hold⟩ | ⟨_, hx⟩
    · have hvlt := (hinv.bindOk _ v hv).1
      rcases hinv.docSome nb v hv p hp hold with h | h
      · exact Or.inl h
      · exact Or.inr (by rwa [ancestors_append _ _ hvlt])
    · rw [hx] at hst
      exact absurd hst (by simp)
  · intro nb hv p hp
    rcases lt_trichotomy p acc.1.length with hlt | heq | hgt
    · rw [enqueuedAt_append_lt _ _ hlt]
      exact hinv.docNone nb hv p hp
    · subst heq
      rw [enqueuedAt_append_self]
      exact hst
    · unfold enqueuedAt
      rw [List.get?_eq_none.mpr (by simp only [List.length_append, List.length_singleton]; omega)]
      rfl

/-- The synchronous enqueue step preserves the invariant. -/
theorem stepInv_preserved (closed : Nat → Bool) (calls : List DocOrCell)
    (acc : List EnqueueStatus × PendingMap) (k : DocOrCell)
    (hlen : calls.get? acc.1.length = some k)
    (hinv : StepInv calls acc) :
    StepInv calls (chainWithPendingUpdatesStep closed acc k) := by
  obtain ⟨ss, m⟩ := acc
  simp only at hlen
  by_cases h1 : closed k.notebook
  · have hstep : chainWithPendingUpdatesStep closed (ss, m) k = (ss ++ [.skippedClosed], m) := by
      simp [chainWithPendingUpdatesStep, h1]
    rw [hstep]
    exact stepInv_append_inert calls (ss, m) _ rfl hinv
  · cases h2 : mapLookup m (.doc k.notebook) with
    | none =>
      -- fresh chain: status `enqueued none`, binding `k ↦ ss.length`
      have hstep : chainWithPendingUpdatesStep closed (ss, m) k =
          (ss ++ [.enqueued none], mapSet m k ss.length) := by
        simp [chainWithPendingUpdatesStep, h1, h2]
      rw [hstep]
      constructor
      · intro p i hp
        rcases get?_append_singleton_cases ss _ p _ hp with ⟨_, hold⟩ | ⟨_, hx⟩
        · exact hinv.predLt p i hold
        · exact absurd hx.symm (by simp)
      · intro k' v hv
        rw [mapLookup_mapSet] at hv
        by_cases hk' : k = k'
        · rw [if_pos hk'] at hv
          obtain rfl : ss.length = v := Option.some_injective _ hv
          subst hk'
          refine ⟨by simp only [List.length_append, List.length_singleton]; omega, hlen, ?_⟩
          rw [enqueuedAt_append_self]
          rfl
        · rw [if_neg hk'] at hv
          obtain ⟨hv1, hv2, hv3⟩ := hinv.bindOk k' v hv
          have hv1' : v < ss.length := hv1
          exact ⟨by simp only [List.length_append, List.length_singleton]; omega, hv2,
            by rwa [enqueuedAt_append_lt _ _ hv1']⟩
      · intro nb v hv p hp hpe
        rw [mapLookup_mapSet] at hv
        by_cases hk' : k = .doc nb
        · rw [if_pos hk'] at hv
          obtain rfl : ss.length = v := Option.some_injective _ hv
          rcases enqueuedAt_append_cases ss _ p hpe with ⟨hlt, hold⟩ | ⟨hpl, _⟩
          · exfalso
            rw [hk'] at h2
            have := hinv.docNone nb h2 p hp
            rw [this] at hold
            exact Bool.noConfusion hold
          · exact Or.inl hpl
        · rw [if_neg hk'] at hv
          rcases enqueuedAt_append_cases ss _ p hpe with ⟨hlt, hold⟩ | ⟨hpl, _⟩
          · have hvlt : v < ss.length := (hinv.bindOk _ v hv).1
            rcases hinv.docSome nb v hv p hp hold with h | h
            · exact Or.inl h
            · exact Or.inr (by rwa [ancestors_append _ _ hvlt])
          · exfalso
            rw [hpl, hlen] at hp
            exact hk' (Option.some_injective _ hp)
      · intro nb hv p hp
        rw [mapLookup_mapSet] at hv
        by_cases hk' : k = .doc nb
        · rw [if_pos hk'] at hv
          exact Option.noConfusion hv
        · rw [if_neg hk'] at hv
          rcases lt_trichotomy p ss.length with hlt | heq | hgt
          · rw [enqueuedAt_append_lt _ _ hlt]
            exact hinv.docNone nb hv p hp
          · exfalso
            rw [heq, hlen] at hp
            exact hk' (Option.some_injective _ hp)
          · unfold enqueuedAt
            rw [List.get?_eq_none.mpr (by simp only [List.length_append, List.length_singleton]; omega)]
            rfl
    | some d =>
      cases h3 : mapLookup m k with
      | none =>
        -- `get(documentOrCell)` returned `undefined`: crash, map untouched
        have hstep : chainWithPendingUpdatesStep closed (ss, m) k = (ss ++ [.crashed], m) := by
          simp [chainWithPendingUpdatesStep, h1, h2, h3]
        rw [hstep]
        exact stepInv_append_inert calls (ss, m) _ rfl hinv
      | some j =>
        -- chained: status `enqueued (some j)`, binding `k ↦ ss.length`
        have hstep : chainWithPendingUpdatesStep closed (ss, m) k =
            (ss ++ [.enqueued (some j)], mapSet m k ss.length) := by
          simp [chainWithPendingUpdatesStep, h1, h2, h3]
        rw [hstep]
        obtain ⟨hj1, hj2, hj3⟩ := hinv.bindOk k j h3
        have hj1' : j < ss.length := hj1
        constructor
        · intro p i hp
          rcases get?_append_singleton_cases ss _ p _ hp with ⟨_, hold⟩ | ⟨hpl, hx⟩
          · exact hinv.predLt p i hold
          · have : i = j := by
              cases hx
              rfl
            subst this
            omega
        · intro k' v hv
          rw [mapLookup_mapSet] at hv
          by_cases hk' : k = k'
          · rw [if_pos hk'] at hv
            obtain rfl : ss.length = v := Option.some_injective _ hv
            subst hk'
            refine ⟨by simp only [List.length_append, List.length_singleton]; omega, hlen, ?_⟩
            rw [enqueuedAt_append_self]
            rfl
          · rw [if_neg hk'] at hv
            obtain ⟨hv1, hv2, hv3⟩ := hinv.bindOk k' v hv
            have hv1' : v < ss.length := hv1
            exact ⟨by simp only [List.length_append, List.length_singleton]; omega, hv2,
              by rwa [enqueuedAt_append_lt _ _ hv1']⟩
        · intro nb v hv p hp hpe
          rw [mapLookup_mapSet] at hv
          by_cases hk' : k = .doc nb
          · rw [if_pos hk'] at hv
            obtain rfl : ss.length = v := Option.some_injective _ hv
            rcases enqueuedAt_append_cases ss _ p hpe with ⟨hlt, hold⟩ | ⟨hpl, _⟩
            · -- `p` is an earlier registered invocation on this document key:
              -- it is `j` or in `j`'s chain, and the new chain is `j :: ancestors j`
              have hdoc : mapLookup m (.doc nb) = some j := by rwa [hk'] at h3
              have hanc : ancestors (ss ++ [.enqueued (some j)]) ss.length =
                  j :: ancestors ss j := by
                rw [ancestors_eq]
                rw [List.get?_concat_length]
                simp only [hj1, if_pos]
                rw [ancestors_append _ _ hj1]
              rcases hinv.docSome nb j hdoc p hp hold with h | h
              · exact Or.inr (by rw [hanc, h]; exact List.mem_cons_self j _)
              · exact Or.inr (by rw [hanc]; exact List.mem_cons_of_mem j h)
            · exact Or.inl hpl
          · rw [if_neg hk'] at hv
            rcases enqueuedAt_append_cases ss _ p hpe with ⟨hlt, hold⟩ | ⟨hpl, _⟩
            · have hvlt : v < ss.length := (hinv.bindOk _ v hv).1
              rcases hinv.docSome nb v hv p hp hold with h | h
              · exact Or.inl h
              · exact Or.inr (by rwa [ancestors_append _ _ hvlt])
            · exfalso
              rw [hpl, hlen] at hp
              exact hk' (Option.some_injective _ hp)
        · intro nb hv p hp
          rw [mapLookup_mapSet] at hv
          by_cases hk' : k = .doc nb
          · rw [if_pos hk'] at hv
            exact Option.noConfusion hv
          · rw [if_neg hk'] at hv
            rcases lt_trichotomy p ss.length with hlt | heq | hgt
            · rw [enqueuedAt_append_lt _ _ hlt]
              exact hinv.docNone nb hv p hp
            · exfalso
              rw [heq, hlen] at hp
              exact hk' (Option.some_injective _ hp)
            · unfold enqueuedAt
              rw [List.get?_eq_none.mpr (by simp only [List.length_append, List.length_singleton]; omega)]
              rfl

/-- The invariant holds after any number of invocations. -/
theorem enqInv (closed : Nat → Bool) (calls : List DocOrCell) :
    ∀ n, StepInv calls (enqueueN closed calls n) := by
  intro n
  induction n with
  | zero =>
    constructor
    · intro p i hp
      simp [enqueueN] at hp
    · intro k v hv
      simp [enqueueN, mapLookup] at hv
    · intro nb v hv
      simp [enqueueN, mapLookup] at hv
    · intro nb _ p _
      simp [enqueueN, enqueuedAt]
  | succ n ih =>
    rw [enqueueN_succ]
    cases hc : calls.get? n with
    | none => exact ih
    | some k =>
      refine stepInv_preserved closed calls _ k ?_ ih
      have hlt : n < calls.length := by
        by_contra hge
        rw [List.get?_eq_none.mpr (by omega)] at hc
        exact Option.noConfusion hc
      rw [enqueueN_length]
      rwa [min_eq_left (by omega)]

theorem get?_concat_eq (ss : List EnqueueStatus) (st : EnqueueStatus) {j : Nat}
    (hj : ss.length = j) : (ss ++ [st]).get? j = some st := by
  subst hj
  exact List.get?_concat_length ss st

/-- Serialization for notebook-document keys: a later registered invocation
on the same document key has every earlier registered invocation on that key
in its chain, i.e. it runs only after they have settled.  (This is the part
of the per-key invariant that the code actually guarantees; for cell keys it
fails, see the C1 counterexample.) -/
theorem docKey_serialized (closed : Nat → Bool) (calls : List DocOrCell) (nb : Nat)
    {i j : Nat} (hij : i < j)
    (hki : calls.get? i = some (.doc nb)) (hkj : calls.get? j = some (.doc nb))
    (hei : enqueuedAt (enqueueStatuses closed calls) i = true)
    (hej : enqueuedAt (enqueueStatuses closed calls) j = true) :
    i ∈ ancestors (enqueueStatuses closed calls) j := by
  have hjlt : j < calls.length := by
    by_contra hge
    rw [List.get?_eq_none.mpr (by omega)] at hkj
    exact Option.noConfusion hkj
  have hjlen : (enqueueN closed calls j).1.length = j := by
    rw [enqueueN_length, min_eq_left (by omega)]
  have hNlen : (enqueueN closed calls calls.length).1.length = calls.length := by
    rw [enqueueN_length, min_eq_left le_rfl]
  have hj1len : (enqueueN closed calls (j + 1)).1.length = j + 1 := by
    rw [enqueueN_length, min_eq_left (by omega)]
  -- invocation `i`'s status is already present in the state before step `j`
  have hgeti : (enqueueN closed calls calls.length).1.get? i =
      (enqueueN closed calls j).1.get? i :=
    enqueueN_get?_mono closed calls (by omega) (by omega)
  have heij : enqueuedAt (enqueueN closed calls j).1 i = true := by
    unfold enqueueStatuses at hei
    unfold enqueuedAt at hei ⊢
    rwa [hgeti] at hei
  -- invocation `j`'s status is produced by step `j`
  have hstepj : enqueueN closed calls (j + 1) =
      chainWithPendingUpdatesStep closed (enqueueN closed calls j) (.doc nb) := by
    rw [enqueueN_succ, hkj]
  have hgetj : (enqueueN closed calls calls.length).1.get? j =
      (enqueueN closed calls (j + 1)).1.get? j :=
    enqueueN_get?_mono closed calls (by omega) (by omega)
  have hinv := enqInv closed calls j
  by_cases hcl : closed nb
  · exfalso
    have : (enqueueN closed calls (j + 1)).1 =
        (enqueueN closed calls j).1 ++ [.skippedClosed] := by
      rw [hstepj]
      simp [chainWithPendingUpdatesStep, DocOrCell.notebook, hcl]
    unfold enqueueStatuses at hej
    unfold enqueuedAt at hej
    rw [hgetj, this, get?_concat_eq _ _ hjlen] at hej
    simp [EnqueueStatus.isEnqueued] at hej
  · cases hdoc : mapLookup (enqueueN closed calls j).2 (.doc nb) with
    | none =>
      exfalso
      have := hinv.docNone nb hdoc i hki
      rw [this] at heij
      exact Bool.noConfusion heij
    | some v =>
      have hv := hinv.bindOk (.doc nb) v hdoc
      have hvlt : v < j := by
        have := hv.1
        omega
      have hfst : (enqueueN closed calls (j + 1)).1 =
          (enqueueN closed calls j).1 ++ [.enqueued (some v)] := by
        rw [hstepj]
        simp [chainWithPendingUpdatesStep, DocOrCell.notebook, hcl, hdoc]
      have hgetjv : (enqueueN closed calls calls.length).1.get? j =
          some (.enqueued (some v)) := by
        rw [hgetj, hfst, get?_concat_eq _ _ hjlen]
      -- the chain of `j` in the final statuses is `v` followed by `v`'s chain
      have hancfinal : ancestors (enqueueN closed calls calls.length).1 j =
          v :: ancestors (enqueueN closed calls calls.length).1 v := by
        rw [ancestors_eq, hgetjv]
        simp [hvlt]
      have hancv : ancestors (enqueueN closed calls calls.length).1 v =
          ancestors (enqueueN closed calls j).1 v :=
        ancestors_congr _ _ v (fun q hq =>
          enqueueN_get?_mono closed calls (by omega) (by omega))
      unfold enqueueStatuses
      rw [hancfinal, hancv]
      rcases hinv.docSome nb v hdoc i hki heij with h | h
      · rw [h]
        exact List.mem_cons_self v _
      · exact List.mem_cons_of_mem v h

/-- A position with `enqueuedAt` holds an `enqueued` status. -/
theorem enqueuedAt_eq_some (ss : List EnqueueStatus) (j : Nat)
    (h : enqueuedAt ss j = true) : ∃ pred, ss.get? j = some (.enqueued pred) := by
  unfold enqueuedAt at h
  cases hg : ss.get? j with
  | none =>
    rw [hg] at h
    simp [Option.any] at h
  | some st =>
    rw [hg] at h
    cases st with
    | enqueued pred => exact ⟨pred, rfl⟩
    | skippedClosed => simp [Option.any, EnqueueStatus.isEnqueued] at h
    | crashed => simp [Option.any, EnqueueStatus.isEnqueued] at h

/-- The caller-visible outcome reads only this invocation's `applyEdit`
result: changing the oracle at other invocations changes nothing for `j`. -/
theorem callerOutcome_congr (closed : Nat → Bool) (specs : List CallSpec)
    (apply apply' : Nat → Except String Bool) (j : Nat)
    (h : apply' j = apply j) :
    callerOutcome closed specs apply' j = callerOutcome closed specs apply j := by
  unfold callerOutcome
  rw [h]

/-- Deleting all cell bindings of a document via the `forEach` fold. -/
theorem mapLookup_foldl_mapDelete (cells : List Nat) (nb : Nat) (m : PendingMap)
    (k : DocOrCell) :
    mapLookup (cells.foldl (fun acc idx => mapDelete acc (.cell nb idx)) m) k =
      if k ∈ cells.map (DocOrCell.cell nb) then none else mapLookup m k := by
  induction cells generalizing m with
  | nil => simp
  | cons c rest ih =>
    simp only [List.foldl_cons, List.map_cons, List.mem_cons]
    rw [ih]
    by_cases h1 : k ∈ rest.map (DocOrCell.cell nb)
    · simp [h1]
    · by_cases h2 : k = DocOrCell.cell nb c
      · simp [h1, h2, mapLookup_mapDelete]
      · simp [h1, h2, mapLookup_mapDelete]

/-- `findIndex` misses exactly when no element satisfies the predicate. -/
theorem findIndex_eq_none_iff (p : ExternalButton → Bool) (l : List ExternalButton) :
    findIndex p l = none ↔ ∀ b ∈ l, p b = false := by
  induction l with
  | nil => simp [findIndex]
  | cons b rest ih =>
    by_cases h : p b <;> simp [findIndex, h, ih]

/-- The `dispose` closure is `eraseP`: it removes exactly the first entry
with the captured id and keeps everything else. -/
theorem disposeWebviewCellButton_eq_eraseP (buttons : List ExternalButton)
    (buttonId : String) :
    (disposeWebviewCellButton buttons buttonId).1 =
      buttons.eraseP (fun b => b.buttonId == buttonId) := by
  induction buttons with
  | nil => rfl
  | cons b rest ih =>
    unfold disposeWebviewCellButton at ih ⊢
    by_cases h : (b.buttonId == buttonId) = true
    · have hf : findIndex (fun x => x.buttonId == buttonId) (b :: rest) = some 0 := by
        simp [findIndex, h]
      rw [hf]
      show (b :: rest).eraseIdx 0 = List.eraseP (fun x => x.buttonId == buttonId) (b :: rest)
      rw [List.eraseP_cons_of_pos (l := rest) (p := fun x => x.buttonId == buttonId) h]
      rfl
    · have hneg : ¬ ((fun x => x.buttonId == buttonId) b = true) := h
      rw [List.eraseP_cons_of_neg (l := rest) (p := fun x => x.buttonId == buttonId) hneg]
      cases hf : findIndex (fun x => x.buttonId == buttonId) rest with
      | none =>
        have hf2 : findIndex (fun x => x.buttonId == buttonId) (b :: rest) = none := by
          simp [findIndex, h, hf]
        rw [hf2]
        rw [hf] at ih
        show b :: rest = b :: rest.eraseP (fun x => x.buttonId == buttonId)
        rw [← ih]
      | some i =>
        have hf2 : findIndex (fun x => x.buttonId == buttonId) (b :: rest) =
            some (i + 1) := by
          simp [findIndex, h, hf]
        rw [hf2]
        rw [hf] at ih
        show (b :: rest).eraseIdx (i + 1) =
          b :: rest.eraseP (fun x => x.buttonId == buttonId)
        show b :: rest.eraseIdx i = _
        rw [← ih]

/-- Elements not matching the predicate survive `eraseP`. -/
theorem mem_eraseP_of_not_matching {b : ExternalButton} {l : List ExternalButton}
    (p : ExternalButton → Bool) (hb : b ∈ l) (hp : p b = false) :
    b ∈ l.eraseP p := by
  induction l with
  | nil => exact absurd hb (List.not_mem_nil b)
  | cons x rest ih =>
    rw [List.eraseP_cons]
    rcases List.mem_cons.mp hb with rfl | hmem
    · rw [hp]
      exact List.mem_cons_self b _
    · by_cases hx : p x
      · simp only [hx, if_true]
        exact hmem
      · simp only [hx, if_false]
        exact List.mem_cons_of_mem x (ih hmem)

/-- One button operation preserves uniqueness of ids. -/
theorem buttonStep_nodup (bs : List ExternalButton) (op : ButtonOp)
    (h : (buttonIds bs).Nodup) : (buttonIds (buttonStep bs op)).Nodup := by
  cases op with
  | create id cb co st tt =>
    show (buttonIds (createWebviewCellButton bs id cb co st tt).1).Nodup
    unfold createWebviewCellButton
    cases hf : findIndex (fun b => b.buttonId == id) bs with
    | some i => exact h
    | none =>
      have hnone := (findIndex_eq_none_iff _ bs).mp hf
      show (List.map ExternalButton.buttonId
        (bs ++ [⟨id, some cb, co, st, tt, false⟩])).Nodup
      rw [List.map_append, List.nodup_append]
      refine ⟨h, List.nodup_singleton id, ?_⟩
      intro a ha hb
      simp only [List.map_cons, List.map_nil, List.mem_singleton] at hb
      obtain ⟨b, hbmem, rfl⟩ := List.mem_map.mp ha
      have hfb := hnone b hbmem
      rw [hb] at hfb
      simp at hfb
  | disposeHandle id =>
    show (buttonIds (disposeWebviewCellButton bs id).1).Nodup
    rw [disposeWebviewCellButton_eq_eraseP]
    exact ((List.eraseP_sublist bs).map ExternalButton.buttonId).nodup h

/-! ## Claim theorems -/

/-- C1 (code bug): two `chainWithPendingUpdates` calls keyed by the same
`NotebookCell`, on an open notebook whose document object was never itself
used as a key, are both registered on fresh chains: the membership test
`pendingCellUpdates.has(notebook)` asks about the *document* while the first
call stored its promise under the *cell*, so the second call falls back to
`Promise.resolve()` instead of chaining, and the two updates may be in
flight concurrently — against the claim and the function's own doc comment
("We cannot update cells in parallel, this could result in data loss"). -/
theorem cellKey_calls_mayRunConcurrently :
    enqueueStatuses (fun _ => false) [.cell 0 0, .cell 0 0] =
      [.enqueued none, .enqueued none]
    ∧ mayRunConcurrently (enqueueStatuses (fun _ => false) [.cell 0 0, .cell 0 0]) 0 1
    ∧ ¬ serializedPerKey (fun _ => false) [.cell 0 0, .cell 0 0] :=
  ⟨by decide, by decide, by decide⟩

/-- C2: when `workspace.applyEdit` rejects for a registered invocation whose
apply was reached, that invocation's caller gets exactly that rejection; the
outcome of every other invocation does not depend on the oracle's behaviour
at `i`; and every registered invocation's callback still runs (in the model
every chain settles and runs its registered `.finally` callbacks — see the
module comment — so "runs" is exactly "was registered"). -/
theorem applyEditFailure_reportedOnlyToCaller (closed : Nat → Bool)
    (specs : List CallSpec) (apply : Nat → Except String Bool) (i : Nat) (msg : String)
    (hinvoke : applyInvoked closed specs i = true)
    (hfail : apply i = .error msg) :
    callerOutcome closed specs apply i = .rejectedApply msg
    ∧ (∀ apply' : Nat → Except String Bool, (∀ j, j ≠ i → apply' j = apply j) →
        ∀ j, j ≠ i →
          callerOutcome closed specs apply' j = callerOutcome closed specs apply j)
    ∧ (∀ j, enqueuedAt (callStatuses closed specs) j = true →
        updateInvoked closed specs j = true) := by
  refine ⟨?_, ?_, ?_⟩
  · unfold applyInvoked at hinvoke
    rw [Bool.and_eq_true] at hinvoke
    obtain ⟨henq, hrest⟩ := hinvoke
    obtain ⟨pred, hget⟩ := enqueuedAt_eq_some _ _ henq
    cases hc : specs.get? i with
    | none =>
      rw [hc] at hrest
      exact absurd hrest (by simp)
    | some c =>
      rw [hc] at hrest
      rw [Bool.and_eq_true] at hrest
      obtain ⟨hthrow, hcount⟩ := hrest
      have hthrow' : c.updateThrows = false := by
        cases hcu : c.updateThrows
        · rfl
        · rw [hcu] at hthrow
          exact absurd hthrow (by simp)
      have hcount' : ¬ c.editCount = 0 := by
        intro hz
        rw [hz] at hcount
        simp at hcount
      unfold callerOutcome
      rw [hget, hc]
      simp [hthrow', hcount', hfail]
  · intro apply' hagree j hji
    exact callerOutcome_congr closed specs apply apply' j (hagree j hji)
  · intro j hj
    exact hj

/-- C2 witness: a two-call document-key sequence where the first apply
rejects with "boom" and the second succeeds. -/
theorem applyEditFailure_reportedOnlyToCaller_witness :
    callerOutcome (fun _ => false)
      [⟨DocOrCell.doc 0, false, 1⟩, ⟨DocOrCell.doc 0, false, 1⟩]
      (fun i => if i = 0 then .error "boom" else .ok true) 0 =
      .rejectedApply "boom" :=
  (applyEditFailure_reportedOnlyToCaller (fun _ => false)
    [⟨DocOrCell.doc 0, false, 1⟩, ⟨DocOrCell.doc 0, false, 1⟩]
    (fun i => if i = 0 then .error "boom" else .ok true) 0 "boom"
    (by decide) rfl).1

/-- C3 counterexample: on a cell key a no-op invocation is followed by two
nonempty invocations, and those successors are not chained to each other
(both start fresh chains), so they do not run in submission order. -/
theorem noOpPreservesOrder_counterexample :
    ¬ noOpPreservesOrder (fun _ => false)
      [⟨.cell 0 0, false, 0⟩, ⟨.cell 0 0, false, 1⟩, ⟨.cell 0 0, false, 1⟩] := by
  intro h
  have h2 := (h 0 (by decide) rfl (by decide)).2
    1 (by decide) 2 (by decide) (by decide) (by decide) rfl rfl (by decide) (by decide)
  revert h2
  decide

/-- C3 (amended): an invocation whose `update` contributes no edits never
reaches `workspace.applyEdit`; the chain structure is exactly what it would
be for any other edit counts (the enqueue step never reads them), so later
invocations on the same key are chained as if the no-op had contributed
edits; and on notebook-document keys the no-op and all later registered
invocations on that key run in submission order.  (On cell keys submission
order can fail independently of no-ops — the C1 bug.) -/
theorem noOpUpdate_skipsApply_keepsChain (closed : Nat → Bool)
    (specs : List CallSpec) (i : Nat)
    (h0 : (specs.get? i).map CallSpec.editCount = some 0) :
    applyInvoked closed specs i = false
    ∧ (∀ f : CallSpec → Nat,
        callStatuses closed specs =
          callStatuses closed (specs.map (fun c => { c with editCount := f c })))
    ∧ (∀ nb, keyAt specs i = some (.doc nb) →
        ∀ j k, i ≤ j → j < k →
          keyAt specs j = some (.doc nb) → keyAt specs k = some (.doc nb) →
          enqueuedAt (callStatuses closed specs) j = true →
          enqueuedAt (callStatuses closed specs) k = true →
          j ∈ ancestors (callStatuses closed specs) k) := by
  refine ⟨?_, ?_, ?_⟩
  · unfold applyInvoked
    cases hc : specs.get? i with
    | none =>
      rw [hc] at h0
      exact absurd h0 (by simp)
    | some c =>
      rw [hc] at h0
      have hz : c.editCount = 0 := by
        simpa using h0
      simp [hz]
  · intro f
    unfold callStatuses
    have hkeys : (specs.map (fun c => { c with editCount := f c })).map CallSpec.key
        = specs.map CallSpec.key := by
      rw [List.map_map]
      rfl
    rw [hkeys]
  · intro nb _ j k _ hjk hkj hkk hej hek
    have hj : (specs.map CallSpec.key).get? j = some (.doc nb) := by
      rw [List.get?_map]
      exact hkj
    have hk : (specs.map CallSpec.key).get? k = some (.doc nb) := by
      rw [List.get?_map]
      exact hkk
    exact docKey_serialized closed (specs.map CallSpec.key) nb hjk hj hk hej hek

/-- C3 witness: a document-key run with a no-op first invocation; it is
registered, performs no apply, and the nonempty second invocation is chained
after it. -/
theorem noOpUpdate_skipsApply_keepsChain_witness :
    applyInvoked (fun _ => false)
      [⟨DocOrCell.doc 0, false, 0⟩, ⟨DocOrCell.doc 0, false, 3⟩] 0 = false
    ∧ 0 ∈ ancestors
        (callStatuses (fun _ => false)
          [⟨DocOrCell.doc 0, false, 0⟩, ⟨DocOrCell.doc 0, false, 3⟩]) 1 := by
  have h := noOpUpdate_skipsApply_keepsChain (fun _ => false)
    [⟨DocOrCell.doc 0, false, 0⟩, ⟨DocOrCell.doc 0, false, 3⟩] 0 rfl
  exact ⟨h.1, h.2.2 0 rfl 0 1 (by decide) (by decide) rfl rfl (by decide) (by decide)⟩

/-- C4 counterexample: an invocation on an open document whose `update`
contributes no edits returns a promise that never settles (`deferred` is
never resolved), so it does not settle with the `applyEdit` outcome. -/
theorem settlesWithApplyOutcome_counterexample :
    ¬ settlesWithApplyOutcome (fun _ => false) [⟨.doc 0, false, 0⟩]
      (fun _ => .ok true) := by
  decide

/-- C4 (amended): for a registered invocation the returned promise settles
with exactly the `applyEdit` outcome when `update` returns normally and
contributed at least one edit; it never settles when `update` threw or
contributed no edits; and an invocation that crashed on the
`undefined.finally` lookup rejects with the `TypeError`. -/
theorem chainCallerOutcome_classification (closed : Nat → Bool) (specs : List CallSpec)
    (apply : Nat → Except String Bool) (i : Nat) (c : CallSpec)
    (hc : specs.get? i = some c) :
    (enqueuedAt (callStatuses closed specs) i = true →
      c.updateThrows = false → c.editCount ≠ 0 →
      callerOutcome closed specs apply i =
        (match apply i with
         | .ok r => .resolved r
         | .error msg => .rejectedApply msg))
    ∧ (enqueuedAt (callStatuses closed specs) i = true →
        (c.updateThrows = true ∨ c.editCount = 0) →
        callerOutcome closed specs apply i = .pending)
    ∧ ((callStatuses closed specs).get? i = some .crashed →
        callerOutcome closed specs apply i = .rejectedTypeError) := by
  refine ⟨?_, ?_, ?_⟩
  · intro henq ht h0
    obtain ⟨pred, hget⟩ := enqueuedAt_eq_some _ _ henq
    unfold callerOutcome
    rw [hget, hc]
    simp [ht, h0]
  · intro henq hcase
    obtain ⟨pred, hget⟩ := enqueuedAt_eq_some _ _ henq
    unfold callerOutcome
    rw [hget, hc]
    rcases hcase with ht | h0
    · simp [ht]
    · by_cases ht : c.updateThrows
      · simp [ht]
      · simp [ht, h0]
  · intro hcrash
    unfold callerOutcome
    rw [hcrash, hc]

/-- C4 witness: a registered one-edit invocation whose apply resolves `true`
settles with `resolved true`. -/
theorem chainCallerOutcome_classification_witness :
    callerOutcome (fun _ => false) [⟨DocOrCell.doc 0, false, 2⟩]
      (fun _ => .ok true) 0 = .resolved true := by
  have h := (chainCallerOutcome_classification (fun _ => false)
    [⟨DocOrCell.doc 0, false, 2⟩] (fun _ => .ok true) 0
    ⟨DocOrCell.doc 0, false, 2⟩ rfl).1 (by decide) rfl (by decide)
  exact h

/-- C5 counterexample: after an invocation on document 0 and the closing of
document 0, the pending-update map still holds the entry for document 0 —
closing removes nothing. -/
theorem entriesRemovedOnClose_counterexample :
    ¬ entriesRemovedOnClose [.call (.doc 0), .closeDoc 0] 0 := by
  decide

/-- C5 (amended): closing a document leaves the pending-update map untouched
(the module registers no close listener); a call on a closed notebook leaves
the map untouched and only records the skip; the only removal is the
test-only helper, which deletes the active document's binding and those of
its cells and nothing else; and no state survives a restart, since the
module-level map starts empty. -/
theorem closeDoc_keepsEntries_clearForTests_removes :
    (∀ (s : ChainState) (nb : Nat), (s.step (.closeDoc nb)).pending = s.pending)
    ∧ (∀ (s : ChainState) (k : DocOrCell), s.closedDocs.contains k.notebook = true →
        (s.step (.call k)).pending = s.pending ∧
          (s.step (.call k)).statuses = s.statuses ++ [.skippedClosed])
    ∧ (∀ (s : ChainState) (nb : Nat) (cells : List Nat),
        mapLookup (s.step (.clearForTests (some (nb, cells)))).pending (.doc nb) = none
        ∧ (∀ idx, idx ∈ cells →
            mapLookup (s.step (.clearForTests (some (nb, cells)))).pending
              (.cell nb idx) = none)
        ∧ (∀ k : DocOrCell, k ≠ .doc nb → k ∉ cells.map (DocOrCell.cell nb) →
            mapLookup (s.step (.clearForTests (some (nb, cells)))).pending k =
              mapLookup s.pending k))
    ∧ initChainState.pending = [] := by
  refine ⟨?_, ?_, ?_, rfl⟩
  · intro s nb
    rfl
  · intro s k hcl
    have hmem : k.notebook ∈ s.closedDocs := by
      simpa using hcl
    constructor
    · show (chainWithPendingUpdatesStep (fun nb => s.closedDocs.contains nb)
        (s.statuses, s.pending) k).2 = s.pending
      unfold chainWithPendingUpdatesStep
      simp [hmem]
    · show (chainWithPendingUpdatesStep (fun nb => s.closedDocs.contains nb)
        (s.statuses, s.pending) k).1 = s.statuses ++ [.skippedClosed]
      unfold chainWithPendingUpdatesStep
      simp [hmem]
  · intro s nb cells
    refine ⟨?_, ?_, ?_⟩
    · show mapLookup (cells.foldl (fun m idx => mapDelete m (.cell nb idx))
        (mapDelete s.pending (.doc nb))) (.doc nb) = none
      rw [mapLookup_foldl_mapDelete]
      have hnotmem : (DocOrCell.doc nb) ∉ cells.map (DocOrCell.cell nb) := by
        intro hmem
        obtain ⟨idx, _, heq⟩ := List.mem_map.mp hmem
        exact DocOrCell.noConfusion heq
      rw [if_neg hnotmem, mapLookup_mapDelete, if_pos rfl]
    · intro idx hidx
      show mapLookup (cells.foldl (fun m idx => mapDelete m (.cell nb idx))
        (mapDelete s.pending (.doc nb))) (.cell nb idx) = none
      rw [mapLookup_foldl_mapDelete,
        if_pos (List.mem_map.mpr ⟨idx, hidx, rfl⟩)]
    · intro k hk1 hk2
      show mapLookup (cells.foldl (fun m idx => mapDelete m (.cell nb idx))
        (mapDelete s.pending (.doc nb))) k = mapLookup s.pending k
      rw [mapLookup_foldl_mapDelete, if_neg hk2, mapLookup_mapDelete, if_neg hk1]

/-- C5 witness: concrete run — close keeps the entry, the test helper
removes it, and a call on the closed document only records the skip. -/
theorem closeDoc_keepsEntries_clearForTests_removes_witness :
    ((runChainEvents [.call (.doc 0)]).step (.closeDoc 0)).pending =
      (runChainEvents [.call (.doc 0)]).pending
    ∧ mapLookup (((runChainEvents [.call (.doc 0)]).step
        (.clearForTests (some (0, [])))).pending) (.doc 0) = none
    ∧ ((runChainEvents [.call (.doc 0), .closeDoc 0]).step
        (.call (.doc 0))).pending =
        (runChainEvents [.call (.doc 0), .closeDoc 0]).pending :=
  ⟨closeDoc_keepsEntries_clearForTests_removes.1 _ 0,
    (closeDoc_keepsEntries_clearForTests_removes.2.2.1 _ 0 []).1,
    (closeDoc_keepsEntries_clearForTests_removes.2.1 _ (.doc 0) (by decide)).1⟩

/-- C6: an invocation whose notebook is already closed returns a promise
resolved to `true` before touching anything: its status is the skip, its
`update` callback is never invoked, no apply happens, the map is unchanged,
and — last conjunct — its caller sees exactly the same outcome (`resolved
true`) as the caller of any invocation whose one-or-more-edit batch was
applied successfully with result `true`, so the two cannot be
distinguished. -/
theorem closedNotebook_skipsAndResolvesTrue (closed : Nat → Bool)
    (specs : List CallSpec) (apply : Nat → Except String Bool) (i : Nat) (c : CallSpec)
    (hc : specs.get? i = some c) (hcl : closed c.key.notebook = true) :
    (callStatuses closed specs).get? i = some .skippedClosed
    ∧ updateInvoked closed specs i = false
    ∧ applyInvoked closed specs i = false
    ∧ callerOutcome closed specs apply i = .resolved true
    ∧ (enqueueN closed (specs.map CallSpec.key) (i + 1)).2 =
        (enqueueN closed (specs.map CallSpec.key) i).2
    ∧ (∀ (closed' : Nat → Bool) (specs' : List CallSpec)
        (apply' : Nat → Except String Bool) (j : Nat) (c' : CallSpec),
        specs'.get? j = some c' →
        enqueuedAt (callStatuses closed' specs') j = true →
        c'.updateThrows = false → c'.editCount ≠ 0 → apply' j = .ok true →
        callerOutcome closed' specs' apply' j = callerOutcome closed specs apply i) := by
  have hkey : (specs.map CallSpec.key).get? i = some c.key := by
    rw [List.get?_map, hc]
    rfl
  have hilt : i < specs.length := by
    by_contra hge
    rw [List.get?_eq_none.mpr (by omega)] at hc
    exact Option.noConfusion hc
  have hmaplen : (specs.map CallSpec.key).length = specs.length := List.length_map _ _
  have hilen : (enqueueN closed (specs.map CallSpec.key) i).1.length = i := by
    rw [enqueueN_length]
    omega
  have hstepf : (chainWithPendingUpdatesStep closed
      (enqueueN closed (specs.map CallSpec.key) i) c.key).1 =
      (enqueueN closed (specs.map CallSpec.key) i).1 ++ [.skippedClosed] := by
    unfold chainWithPendingUpdatesStep
    simp [hcl]
  have hstat : (callStatuses closed specs).get? i = some .skippedClosed := by
    unfold callStatuses enqueueStatuses
    rw [enqueueN_get?_mono closed (specs.map CallSpec.key)
      (show i + 1 ≤ (specs.map CallSpec.key).length by omega)
      (by rw [enqueueN_length]; omega)]
    rw [enqueueN_succ, hkey]
    rw [hstepf, get?_concat_eq _ _ hilen]
  have hupd : updateInvoked closed specs i = false := by
    unfold updateInvoked enqueuedAt
    rw [hstat]
    rfl
  have hout : callerOutcome closed specs apply i = .resolved true := by
    unfold callerOutcome
    rw [hstat, hc]
  refine ⟨hstat, hupd, ?_, hout, ?_, ?_⟩
  · unfold applyInvoked
    unfold updateInvoked at hupd
    rw [hupd]
    rfl
  · rw [enqueueN_succ, hkey]
    unfold chainWithPendingUpdatesStep
    simp [hcl]
  · intro closed' specs' apply' j c' hc' henq' ht' h0' happ'
    obtain ⟨pred, hget'⟩ := enqueuedAt_eq_some _ _ henq'
    rw [hout]
    unfold callerOutcome
    rw [hget', hc']
    simp [ht', h0', happ']

/-- C6 witness: a call on closed notebook 0 resolves `true`, invokes no
update, and its outcome coincides with a successful one-edit apply. -/
theorem closedNotebook_skipsAndResolvesTrue_witness :
    (callStatuses (fun _ => true) [⟨DocOrCell.doc 0, false, 1⟩]).get? 0 =
      some .skippedClosed
    ∧ callerOutcome (fun _ => true) [⟨DocOrCell.doc 0, false, 1⟩]
        (fun _ => .ok true) 0 = .resolved true
    ∧ callerOutcome (fun _ => false) [⟨DocOrCell.doc 1, false, 1⟩]
        (fun _ => .ok true) 0 =
        callerOutcome (fun _ => true) [⟨DocOrCell.doc 0, false, 1⟩]
          (fun _ => .ok true) 0 := by
  have h := closedNotebook_skipsAndResolvesTrue (fun _ => true)
    [⟨DocOrCell.doc 0, false, 1⟩] (fun _ => .ok true) 0
    ⟨DocOrCell.doc 0, false, 1⟩ rfl rfl
  exact ⟨h.1, h.2.2.2.1,
    h.2.2.2.2.2 (fun _ => false) [⟨DocOrCell.doc 1, false, 1⟩]
      (fun _ => .ok true) 0 ⟨DocOrCell.doc 1, false, 1⟩ rfl (by decide) rfl
      (by decide) rfl⟩

/-- C7: across any sequence of `createWebviewCellButton` calls and handle
disposals the `externalButtons` list never holds two entries with the same
`buttonId`; a call whose id is already present returns the list unchanged
and posts nothing; a disposal removes exactly the first (hence, by
uniqueness, the only) entry with the captured id; and every button with a
different id survives a disposal untouched. -/
theorem externalButtons_atMostOnePerId (ops : List ButtonOp) :
    (buttonIds (runButtonOps ops)).Nodup
    ∧ (∀ (bs : List ExternalButton) (id : String) (cb : Nat) (co : String)
        (st : List CellState) (tt : String) (b : ExternalButton),
        b ∈ bs → b.buttonId = id →
        createWebviewCellButton bs id cb co st tt = (bs, []))
    ∧ (∀ (bs : List ExternalButton) (id : String),
        (disposeWebviewCellButton bs id).1 =
          bs.eraseP (fun b => b.buttonId == id))
    ∧ (∀ (bs : List ExternalButton) (id : String) (b : ExternalButton),
        b ∈ bs → b.buttonId ≠ id → b ∈ (disposeWebviewCellButton bs id).1) := by
  refine ⟨?_, ?_, ?_, ?_⟩
  · have hgen : ∀ (l : List ButtonOp) (bs : List ExternalButton),
        (buttonIds bs).Nodup → (buttonIds (l.foldl buttonStep bs)).Nodup := by
      intro l
      induction l with
      | nil =>
        intro bs h
        exact h
      | cons op rest ih =>
        intro bs h
        exact ih _ (buttonStep_nodup bs op h)
    exact hgen ops [] List.nodup_nil
  · intro bs id cb co st tt b hb hid
    unfold createWebviewCellButton
    cases hf : findIndex (fun x => x.buttonId == id) bs with
    | some i => rfl
    | none =>
      exfalso
      have hfb := (findIndex_eq_none_iff _ bs).mp hf b hb
      rw [hid] at hfb
      simp at hfb
  · intro bs id
    exact disposeWebviewCellButton_eq_eraseP bs id
  · intro bs id b hb hne
    rw [disposeWebviewCellButton_eq_eraseP]
    exact mem_eraseP_of_not_matching _ hb (by simpa using hne)

/-- C7 witness: duplicate create leaves the list unchanged, disposal then
removes the single entry, and a differently-named button survives. -/
theorem externalButtons_atMostOnePerId_witness :
    (buttonIds (runButtonOps
      [.create "run" 0 "play" [] "Run", .create "run" 1 "play" [] "Run",
        .disposeHandle "run"])).Nodup
    ∧ createWebviewCellButton [⟨"run", some 0, "play", [], "Run", false⟩]
        "run" 1 "x" [] "y" = ([⟨"run", some 0, "play", [], "Run", false⟩], [])
    ∧ (⟨"keep", some 0, "c", [], "t", false⟩ : ExternalButton) ∈
        (disposeWebviewCellButton
          [⟨"keep", some 0, "c", [], "t", false⟩,
            ⟨"run", some 1, "c", [], "t", false⟩] "run").1 := by
  have h := externalButtons_atMostOnePerId
    [.create "run" 0 "play" [] "Run", .create "run" 1 "play" [] "Run",
      .disposeHandle "run"]
  exact ⟨h.1,
    h.2.1 _ "run" 1 "x" [] "y" ⟨"run", some 0, "play", [], "Run", false⟩
      (by simp) rfl,
    h.2.2.2 _ "run" ⟨"keep", some 0, "c", [], "t", false⟩ (by simp) (by decide)⟩

/-- C8: when the code left after stripping the first cell marker is empty,
`submitCode` returns `true` having only recorded the execute-cell telemetry:
nothing is executed on the notebook (`executeObservable` is never reached),
the `onExecutedCode` event is not fired, and no cell is sent to the
webview. -/
theorem submitCode_emptyAfterStrip_isNoop (env : SubmitEnv) (code : String)
    (h : (env.stripFirstMarker code).length = 0) :
    submitCode env code = (true, [.telemetryExecuteCell])
    ∧ (∀ c, SubmitEffect.executeObservable c ∉ (submitCode env code).2)
    ∧ (∀ c, SubmitEffect.executeEventFired c ∉ (submitCode env code).2)
    ∧ (∀ sts, SubmitEffect.cellsSentToWebView sts ∉ (submitCode env code).2) := by
  have he : submitCode env code = (true, [.telemetryExecuteCell]) := by
    unfold submitCode
    rw [if_pos h]
  refine ⟨he, ?_, ?_, ?_⟩ <;> intro x <;> rw [he] <;> simp

/-- C8 witness: a concrete environment whose cell matcher strips everything;
the call is a no-op returning `true`. -/
theorem submitCode_emptyAfterStrip_isNoop_witness :
    submitCode
      ⟨fun _ => "", true, true, [[CellState.error]], false, false, false⟩
      "#%%" = (true, [.telemetryExecuteCell]) :=
  (submitCode_emptyAfterStrip_isNoop
    ⟨fun _ => "", true, true, [[CellState.error]], false, false, false⟩
    "#%%" (by decide)).1

end VSCJupyter
